import Mathlib

/-!
# Static def/use chain analysis: a verified model

A shallow embedding of the reachability-and-classification engine of
`src/tools/dataflow-sa.cpp`: the definition collector, the per-definition
worklist traversal over the sparse value-flow graph, the use classifier, the
def/use chain store, and the JSON serializer.  Graph nodes are identified by
natural numbers (arena indices standing for `VFGNode` pointers), program
values by indices into a value table, and the external collaborators
(variable-recovery oracle, external allocation API) by explicit parameters.
-/

set_option autoImplicit false

namespace Dataflow

/-- Debug-info variable descriptor (LLVM `DIVariable`): name, declaring file,
line, whether it is a `DILocalVariable`, and the name of the subprogram
enclosing its scope (`getDISubprogram(scope)->getName()`). -/
structure DIVar where
  name : String
  file : String
  line : Nat
  isLocal : Bool
  scopeSubprogram : String
deriving DecidableEq

/-- Debug location (LLVM `DILocation`): file, line and the name of the
subprogram enclosing its scope. -/
structure DILoc where
  file : String
  line : Nat
  scopeSubprogram : String
deriving DecidableEq

/-- The instruction kind of a program value, as far as the engine inspects it:
a load or store carries the value id of its pointer operand, a call carries
the name of the statically resolved callee (`SVFUtil::getCallee`; `none`
models an unresolvable, e.g. indirect, call), and `other` stands for any
other instruction. -/
inductive InstKind where
  | load (ptrOp : Nat)
  | store (ptrOp : Nat)
  | call (callee : Option String)
  | other
deriving DecidableEq

/-- A program value (LLVM `Value`).  `instr = none` models a value that is not
an `Instruction`.  `hasAnyMD` models `Instruction::hasMetadata()`;
`mdTaggedAlloc` and `mdInstrumentedDeref` model the presence of the
`kFuzzallocTaggedAllocMD` and `kFuzzallocInstrumentedDerefMD` markers.
`parentBlock` models `Inst->getParent()->getName()` and `debugLoc` the
instruction's `getDebugLoc()`. -/
structure ValueInfo where
  instr : Option InstKind
  hasAnyMD : Bool
  mdTaggedAlloc : Bool
  mdInstrumentedDeref : Bool
  parentBlock : String
  debugLoc : Option DILoc
deriving DecidableEq

/-- One node of the sparse value-flow graph: its underlying value
(`VFGNode::getValue`, possibly null) and its outgoing dataflow edges
(destination node ids). -/
structure NodeInfo where
  val : Option Nat
  succ : List Nat
deriving DecidableEq

/-- The sparse value-flow graph together with the program's value table and
the call-site set (`SVFIR::getCallSiteSet`, given as the graph nodes of the
call sites). -/
structure VFG where
  values : List ValueInfo
  nodes : List NodeInfo
  callSites : List Nat
deriving DecidableEq

/-- Value id underlying a node (`Node->getValue()` as a table index). -/
def VFG.valId (G : VFG) (n : Nat) : Option Nat :=
  (G.nodes.get? n).bind NodeInfo.val

/-- Value underlying a node, resolved through the value table. -/
def VFG.valueOf (G : VFG) (n : Nat) : Option ValueInfo :=
  (G.valId n).bind (fun i => G.values.get? i)

/-- Outgoing-edge destinations of a node (`Node->getOutEdges()`, projected to
destination nodes). -/
def VFG.succOf (G : VFG) (n : Nat) : List Nat :=
  ((G.nodes.get? n).map NodeInfo.succ).getD []

/-- Model of the external LLVM printer
`Value::print(SS, /*IsForDebug=*/true)`, used as the fallback textual
rendering of a raw value; the printer always emits a non-empty rendering. -/
def printValue (v : ValueInfo) : String :=
  match v.instr with
  | some (.load _) => ("%load")
  | some (.store _) => ("%store")
  | some (.call _) => ("%call")
  | some .other => ("%inst")
  | none => ("%value")

/-- Predicate `isTaggedAlloc` (dataflow-sa.cpp:183-191): false for a null
value and for a non-instruction; an instruction qualifies iff it has metadata
and carries the `kFuzzallocTaggedAllocMD` marker. -/
def isTaggedAlloc (v : Option ValueInfo) : Bool :=
  match v with
  | none => false
  | some vi =>
    match vi.instr with
    | some _ => vi.hasAnyMD && vi.mdTaggedAlloc
    | none => false

/-- Predicate `isInstrumentedDeref` (dataflow-sa.cpp:193-201): false for a
null value and for a non-instruction; an instruction qualifies iff it has
metadata and carries the `kFuzzallocInstrumentedDerefMD` marker. -/
def isInstrumentedDeref (v : Option ValueInfo) : Bool :=
  match v with
  | none => false
  | some vi =>
    match vi.instr with
    | some _ => vi.hasAnyMD && vi.mdInstrumentedDeref
    | none => false

/-- Whether a value is a load or a store instruction (the two `dyn_cast`s at
dataflow-sa.cpp:321-324). -/
def isLoadOrStore (v : Option ValueInfo) : Bool :=
  match v with
  | some vi =>
    match vi.instr with
    | some (.load _) => true
    | some (.store _) => true
    | _ => false
  | none => false

/-- Model of `SVFUtil::getCallee` on a call-site node: the name of the called
function when it can be statically resolved, `none` otherwise. -/
def getCallee (G : VFG) (cs : Nat) : Option String :=
  match G.valueOf cs with
  | some vi =>
    match vi.instr with
    | some (.call c) => c
    | _ => none
  | none => none

/-- Name of the tagged fresh-allocation operation (dataflow-sa.cpp:154). -/
def kTaggedMalloc : String := "__tagged_malloc"

/-- Name of the tagged zero-initialized allocation (dataflow-sa.cpp:155). -/
def kTaggedCalloc : String := "__tagged_calloc"

/-- Name of the tagged reallocation operation (dataflow-sa.cpp:156). -/
def kTaggedRealloc : String := "__tagged_realloc"

/-- External API oracle (`ExtAPI`): classifies a function, by name, as an
allocating or a reallocating operation. -/
structure ExtAPI where
  is_alloc : String → Bool
  is_realloc : String → Bool

/-- The variable-recovery oracle (`VariableRecovery::getVariables`), a lookup
from value ids to recovered debug variables; absence is expected. -/
abbrev SrcVars := Nat → Option DIVar

/-- A variable definition (struct `dataflow::Def`, dataflow-sa.cpp:44-54):
the VFG node, the node's underlying value (`Node->getValue()`), and the
resolved debug variable. -/
structure Def where
  node : Nat
  val : Option ValueInfo
  var : Option DIVar
deriving DecidableEq

/-- A variable use (struct `dataflow::Use`, dataflow-sa.cpp:56-68): the VFG
node, its underlying value, the resolved debug variable of the pointer
operand, and the instruction's debug location. -/
structure Use where
  node : Nat
  val : Option ValueInfo
  var : Option DIVar
  loc : Option DILoc
deriving DecidableEq

/-- Equality of definitions (`Def::operator==`): by underlying node only. -/
def Def.beq (a b : Def) : Bool := a.node == b.node

/-- Model of `std::hash<dataflow::Def>`: the hash of the node pointer; node
ids are already abstract keys, so the model hash is the node id itself. -/
def defHash (d : Def) : Nat := d.node

/-- Equality of uses (`Use::operator==`): by underlying node only. -/
def Use.beq (a b : Use) : Bool := a.node == b.node

/-- Model of `std::hash<dataflow::Use>`: the hash of the node pointer. -/
def useHash (u : Use) : Nat := u.node

/-- The definition collector (dataflow-sa.cpp:267-283): iterate the call-site
set; silently skip a call site whose callee cannot be statically resolved;
for a callee named `__tagged_malloc`, `__tagged_calloc` or
`__tagged_realloc`, assert the fuzzalloc tagged-alloc metadata and the
external (re)allocation classification (fatal abort on violation, modelled as
an error) and record a `Def` built from the call site's graph node, its
value, and the recovered source variable of that value. -/
def collectDefsFrom (G : VFG) (ext : ExtAPI) (vars : SrcVars) :
    List Nat → Except String (List Def)
  | [] => .ok []
  | cs :: rest =>
    match getCallee G cs with
    | none => collectDefsFrom G ext vars rest
    | some f =>
      if f = kTaggedMalloc ∨ f = kTaggedCalloc ∨ f = kTaggedRealloc then
        if !(isTaggedAlloc (G.valueOf cs)) then
          .error ("Tagged alloc must have fuzzalloc metadata")
        else if !(ext.is_alloc f || ext.is_realloc f) then
          .error ("Tagged function must (re)allocate")
        else
          match collectDefsFrom G ext vars rest with
          | .ok ds => .ok (⟨cs, G.valueOf cs, (G.valId cs).bind vars⟩ :: ds)
          | .error e => .error e
      else collectDefsFrom G ext vars rest

/-- One pop's edge scan (dataflow-sa.cpp:305-310): for each successor, insert
it into the visited set and, exactly when the insertion was fresh, enqueue it
at the back of the FIFO worklist.  Returns the updated visited set and
worklist. -/
def visitSuccs : List Nat → List Nat → List Nat → List Nat × List Nat
  | [], vis, q => (vis, q)
  | s :: ss, vis, q =>
    if s ∈ vis then visitSuccs ss vis q
    else visitSuccs ss (s :: vis) (q ++ [s])

/-- The worklist loop (dataflow-sa.cpp:302-311) with explicit fuel: pop a
node, scan its out-edges, repeat until the worklist empties; `none` when the
fuel runs out (shown below to never happen for the fuel `bfsFuel`). -/
def bfsAux (G : VFG) : Nat → List Nat → List Nat → Option (List Nat)
  | _, [], vis => some vis
  | 0, _ :: _, _ => none
  | fuel + 1, u :: rest, vis =>
    bfsAux G fuel (visitSuccs (G.succOf u) vis rest).2
      (visitSuccs (G.succOf u) vis rest).1

/-- Concatenation of all successor lists of the graph; every node the
traversal can ever insert into the visited set occurs in it. -/
def allSuccs (G : VFG) : List Nat :=
  (G.nodes.map NodeInfo.succ).flatten

/-- Fuel sufficient for the worklist loop: the number of distinct possible
visited nodes plus two. -/
def bfsFuel (G : VFG) : Nat := (allSuccs G).dedup.length + 2

/-- The per-definition traversal: seed the worklist with the root and run the
loop on an initially empty visited set. -/
def traverse (G : VFG) (root : Nat) : Option (List Nat) :=
  bfsAux G (bfsFuel G) [root] []

/-- The worklist loop instrumented with the sequence of popped nodes, used to
reason about how often a node is processed. -/
def bfsPops (G : VFG) :
    Nat → List Nat → List Nat → List Nat → Option (List Nat × List Nat)
  | _, [], vis, pops => some (vis, pops)
  | 0, _ :: _, _, _ => none
  | fuel + 1, u :: rest, vis, pops =>
    bfsPops G fuel (visitSuccs (G.succOf u) vis rest).2
      (visitSuccs (G.succOf u) vis rest).1 (pops ++ [u])

/-- Instrumented form of `traverse`, also yielding the pop sequence. -/
def traversePops (G : VFG) (root : Nat) : Option (List Nat × List Nat) :=
  bfsPops G (bfsFuel G) [root] [] []

/-- Well-formed graph: every edge destination is a node of the graph. -/
def WF (G : VFG) : Prop :=
  ∀ nd ∈ G.nodes, ∀ s ∈ nd.succ, s < G.nodes.length

instance (G : VFG) : Decidable (WF G) := by
  unfold WF; infer_instance

/-- Classification of one visited node (dataflow-sa.cpp:313-331): a node that
is not an instrumented dereference is silently skipped; a load or store
yields a `Use` built from the node, the recovered variable of the pointer
operand, and the instruction's debug location; any other value that passed
the predicate hits `llvm_unreachable` (a fatal abort, modelled as an
error). -/
def useOf (G : VFG) (vars : SrcVars) (n : Nat) : Except String (Option Use) :=
  if isInstrumentedDeref (G.valueOf n) then
    match G.valueOf n with
    | some vi =>
      match vi.instr with
      | some (.load p) => .ok (some ⟨n, some vi, vars p, vi.debugLoc⟩)
      | some (.store p) => .ok (some ⟨n, some vi, vars p, vi.debugLoc⟩)
      | _ => .error ("use must be a load or store")
    | none => .error ("use must be a load or store")
  else
    .ok none

/-- Filtering of the visited set (dataflow-sa.cpp:313-331): classify each
visited node in turn, dropping skipped nodes and propagating the fatal
abort. -/
def collectUsesList (G : VFG) (vars : SrcVars) :
    List Nat → Except String (List Use)
  | [] => .ok []
  | n :: rest =>
    match useOf G vars n with
    | .error e => .error e
    | .ok o =>
      match collectUsesList G vars rest with
      | .error e => .error e
      | .ok us =>
        match o with
        | some u => .ok (u :: us)
        | none => .ok us

/-- The per-definition reachability engine (dataflow-sa.cpp:298-331):
traverse from the definition's node, then filter the visited set through the
use classifier. -/
def collectUses (G : VFG) (vars : SrcVars) (root : Nat) :
    Except String (List Use) :=
  match traverse G root with
  | some vis => collectUsesList G vars vis
  | none => .error ("worklist fuel exhausted")

/-- Membership of a use in a chain-store use set, under `Use::operator==`
(node identity), as used by `std::unordered_set<Use>::emplace`. -/
def useMem (u : Use) (us : List Use) : Bool := us.any (fun x => Use.beq x u)

/-- Model of `DefUseChains[Def].emplace(Use, ...)`: find the entry whose key
compares equal to the definition (node identity), default-constructing the
entry if absent, and insert the use unless an equal use is already
present. -/
def insertUse : List (Def × List Use) → Def → Use → List (Def × List Use)
  | [], d, u => [(d, [u])]
  | (d', us) :: rest, d, u =>
    if Def.beq d' d then (d', if useMem u us then us else u :: us) :: rest
    else (d', us) :: insertUse rest d u

/-- Use set stored for a definition in the chain store (empty if absent). -/
def storedUses : List (Def × List Use) → Def → List Use
  | [], _ => []
  | (d', us) :: rest, d => if Def.beq d' d then us else storedUses rest d

/-- Insert all collected uses of one definition into the chain store. -/
def insertUses (store : List (Def × List Use)) (d : Def) :
    List Use → List (Def × List Use)
  | [] => store
  | u :: us => insertUses (insertUse store d u) d us

/-- The use-collection phase over all definitions (dataflow-sa.cpp:297-332):
for each definition run the reachability engine and accumulate its uses in
the chain store; the fatal abort inside a traversal aborts the whole run. -/
def buildChainsAux (G : VFG) (vars : SrcVars)
    (store : List (Def × List Use)) :
    List Def → Except String (List (Def × List Use))
  | [] => .ok store
  | d :: rest =>
    match collectUses G vars d.node with
    | .error e => .error e
    | .ok us => buildChainsAux G vars (insertUses store d us) rest

/-- The external representation produced by the serializer, modelling
`llvm::json::Value`: null, string, number, array. -/
inductive JSON where
  | null
  | str (s : String)
  | num (n : Nat)
  | arr (elems : List JSON)

/-- Function-field fallback through structural context: the containing basic
block's name when the value is an instruction (`dyn_cast<Instruction>` branch
of the `Func` lambdas), null otherwise. -/
def instParentJSON (val : Option ValueInfo) : JSON :=
  match val with
  | some vi =>
    match vi.instr with
    | some _ => .str vi.parentBlock
    | none => .null
  | none => .null

/-- Name rendering of a definition (dataflow-sa.cpp:71-81): the debug
variable's name, or a textual rendering of the raw value as fallback. -/
def defName (d : Def) : String :=
  match d.var with
  | some v => v.name
  | none =>
    match d.val with
    | some vi => printValue vi
    | none => ""

/-- Filename rendering of a definition (dataflow-sa.cpp:83-88): the debug
variable's file, absent without a variable. -/
def defFilename (d : Def) : JSON :=
  match d.var with
  | some v => .str v.file
  | none => .null

/-- Function rendering of a definition (dataflow-sa.cpp:90-97): the enclosing
subprogram of a local debug variable, else the containing block of the
instruction, else absent. -/
def defFunc (d : Def) : JSON :=
  match d.var with
  | some v => if v.isLocal then .str v.scopeSubprogram else instParentJSON d.val
  | none => instParentJSON d.val

/-- Line rendering of a definition (dataflow-sa.cpp:99-104): the debug
variable's line, absent without a variable. -/
def defLine (d : Def) : JSON :=
  match d.var with
  | some v => .num v.line
  | none => .null

/-- Serialization of a definition, `toJSON(const dataflow::Def &)`
(dataflow-sa.cpp:70-107): the pair of the name and the positional triple
file, function, line. -/
def defToJSON (d : Def) : JSON :=
  .arr [.str (defName d), .arr [defFilename d, defFunc d, defLine d]]

/-- Name rendering of a use (dataflow-sa.cpp:110-120): the debug variable's
name, or a textual rendering of the raw value as fallback. -/
def useName (u : Use) : String :=
  match u.var with
  | some v => v.name
  | none =>
    match u.val with
    | some vi => printValue vi
    | none => ""

/-- Filename lambda of a use (dataflow-sa.cpp:122-127); computed from the
debug location but not used in the returned rendering. -/
def useFilename (u : Use) : JSON :=
  match u.loc with
  | some l => .str l.file
  | none => .null

/-- Function rendering of a use (dataflow-sa.cpp:129-136): the enclosing
subprogram of the debug location, else the containing block of the
instruction, else absent. -/
def useFunc (u : Use) : JSON :=
  match u.loc with
  | some l => .str l.scopeSubprogram
  | none => instParentJSON u.val

/-- Line rendering of a use (dataflow-sa.cpp:138-143): the debug location's
line, absent without a location. -/
def useLine (u : Use) : JSON :=
  match u.loc with
  | some l => .num l.line
  | none => .null

/-- Serialization of a use, `toJSON(const dataflow::Use &)`
(dataflow-sa.cpp:109-146): the returned value is `{Name, {nullptr, Func,
Line}}`, so the file position of the positional triple is the literal null,
not the computed filename. -/
def useToJSON (u : Use) : JSON :=
  .arr [.str (useName u), .arr [.null, useFunc u, useLine u]]

/-- The serializer (dataflow-sa.cpp:336-350): one entry per chain-store
element, each the pair of the serialized definition and the array of its
serialized uses. -/
def serializeChains (chains : List (Def × List Use)) : JSON :=
  .arr (chains.map (fun e => .arr [defToJSON e.1, .arr (e.2.map useToJSON)]))

/-- A fatal outcome of the run: process exit with a diagnostic and a non-zero
status, or an assertion/unreachable abort. -/
inductive Fatal where
  | exitNonZero (code : Nat) (msg : String)
  | assertAbort (msg : String)
deriving DecidableEq

/-- The analysis driver after graph construction (dataflow-sa.cpp:263-363):
collect the definitions (assertion failures abort), exit with status 1 when
no definition was found, build the def/use chains (the fatal abort inside the
use classifier aborts), and serialize them to the output path when a
non-empty one was given.  On a fatal outcome no output is produced. -/
def runAnalysis (G : VFG) (ext : ExtAPI) (vars : SrcVars) (outJSON : String) :
    Except Fatal (Option (String × JSON)) :=
  match collectDefsFrom G ext vars G.callSites with
  | .error e => .error (.assertAbort e)
  | .ok defs =>
    if defs.isEmpty then
      .error (.exitNonZero 1 ("Failed to collect any def sites"))
    else
      match buildChainsAux G vars [] defs with
      | .error e => .error (.assertAbort e)
      | .ok chains =>
        if outJSON.isEmpty then .ok none
        else .ok (some (outJSON, serializeChains chains))

/-- Reachability by one or more dataflow edges. -/
inductive ReachesPlus (G : VFG) : Nat → Nat → Prop where
  | single {a b : Nat} (h : b ∈ G.succOf a) : ReachesPlus G a b
  | tail {a b c : Nat} (h : ReachesPlus G a b) (h2 : c ∈ G.succOf b) :
      ReachesPlus G a c

/-- Concrete value: a call to the tagged allocator carrying the tagged-alloc
marker. -/
def viCall : ValueInfo :=
  ⟨some (.call (some kTaggedMalloc)), true, true, false, "entry", none⟩

/-- Concrete value: an uninstrumented intermediate instruction. -/
def viMid : ValueInfo := ⟨some .other, false, false, false, "entry", none⟩

/-- Concrete value: an instrumented load without a debug location. -/
def viLoad : ValueInfo := ⟨some (.load 3), true, false, true, "entry", none⟩

/-- Concrete value: an instruction carrying the instrumented-dereference
marker that is neither a load nor a store. -/
def viBad : ValueInfo := ⟨some .other, true, false, true, "entry", none⟩

/-- Concrete debug location in function main. -/
def locMain : DILoc := ⟨"a.c", 5, "main"⟩

/-- Concrete value: an instrumented load with a debug location. -/
def viLoadLoc : ValueInfo :=
  ⟨some (.load 3), true, false, true, "entry", some locMain⟩

/-- Variable-recovery oracle that recovers nothing. -/
def exVars : SrcVars := fun _ => none

/-- External API oracle classifying the tagged allocators as expected. -/
def exExt : ExtAPI :=
  ⟨fun f => f == kTaggedMalloc || f == kTaggedCalloc,
   fun f => f == kTaggedRealloc⟩

/-- Chain graph 0 → 1 → 2: a tagged allocation call, an uninstrumented
intermediate node, and an instrumented load. -/
def chainG : VFG :=
  ⟨[viCall, viMid, viLoad],
   [⟨some 0, [1]⟩, ⟨some 1, [2]⟩, ⟨some 2, []⟩], [0]⟩

/-- Cycle graph 0 → 1 → 0: the instrumented load flows back to the
definition. -/
def cycleG : VFG :=
  ⟨[viCall, viLoad], [⟨some 0, [1]⟩, ⟨some 1, [0]⟩], [0]⟩

/-- Graph 0 → 1 where node 1 passes the instrumented-use predicate but is
neither a load nor a store. -/
def badUseG : VFG :=
  ⟨[viCall, viBad], [⟨some 0, [1]⟩, ⟨some 1, []⟩], [0]⟩

/-- Graph with a single node carrying an edge to itself. -/
def selfLoopG : VFG := ⟨[viCall], [⟨some 0, [0]⟩], [0]⟩

/-- Graph with no call sites at all. -/
def emptyCSG : VFG := ⟨[], [], []⟩

/-- Concrete value: a call named like the tagged allocator but carrying no
fuzzalloc metadata. -/
def viCallNoMD : ValueInfo :=
  ⟨some (.call (some kTaggedMalloc)), false, false, false, "entry", none⟩

/-- Graph whose only call site matches a tagged name but lacks metadata. -/
def noMDG : VFG := ⟨[viCallNoMD], [⟨some 0, []⟩], [0]⟩

/-- Concrete value: an indirect call (no statically resolved callee). -/
def viCallInd : ValueInfo :=
  ⟨some (.call none), false, false, false, "entry", none⟩

/-- Graph whose only call site is an indirect call. -/
def indG : VFG := ⟨[viCallInd], [⟨some 0, []⟩], [0]⟩

/-- Concrete local debug variable named x. -/
def varX : DIVar := ⟨"x", "a.c", 3, true, "main"⟩

/-- Concrete non-local debug variable named y. -/
def varY : DIVar := ⟨"y", "b.c", 9, false, "g"⟩

/-- Two definition records on the same node with different variables. -/
def c7d1 : Def := ⟨5, none, none⟩

/-- Second definition record on node 5, carrying a variable. -/
def c7d2 : Def := ⟨5, none, some varX⟩

/-- Two use records on the same node with different variables. -/
def c7u1 : Use := ⟨7, none, none, none⟩

/-- Second use record on node 7, carrying a variable. -/
def c7u2 : Use := ⟨7, none, some varY, none⟩

/-- A fully debug-annotated definition record. -/
def d8 : Def := ⟨0, some viCall, some varX⟩

/-- A fully debug-annotated use record. -/
def u8c : Use := ⟨2, some viLoadLoc, some varX, some locMain⟩

/-- A use record with no debug variable but with a debug location. -/
def u9c : Use := ⟨2, some viLoadLoc, none, some locMain⟩

/-- A definition record with no debug variable. -/
def d9 : Def := ⟨0, some viLoad, none⟩

/-- A use record with neither debug variable nor debug location. -/
def u9a : Use := ⟨1, some viLoad, none, none⟩

/-! ## Properties of the edge scan -/

theorem visitSuccs_vis_sub (ss : List Nat) :
    ∀ (vis q : List Nat), ∀ v ∈ vis, v ∈ (visitSuccs ss vis q).1 := by
  induction ss with
  | nil => intro vis q v hv; simpa [visitSuccs] using hv
  | cons s ss ih =>
    intro vis q v hv
    by_cases hm : s ∈ vis
    · simp only [visitSuccs, if_pos hm]
      exact ih vis q v hv
    · simp only [visitSuccs, if_neg hm]
      exact ih _ _ v (List.mem_cons_of_mem _ hv)

theorem visitSuccs_mem_or (ss : List Nat) :
    ∀ (vis q : List Nat), ∀ v ∈ (visitSuccs ss vis q).1, v ∈ vis ∨ v ∈ ss := by
  induction ss with
  | nil => intro vis q v hv; left; simpa [visitSuccs] using hv
  | cons s ss ih =>
    intro vis q v hv
    by_cases hm : s ∈ vis
    · simp only [visitSuccs, if_pos hm] at hv
      rcases ih vis q v hv with h | h
      · exact Or.inl h
      · exact Or.inr (List.mem_cons_of_mem _ h)
    · simp only [visitSuccs, if_neg hm] at hv
      rcases ih _ _ v hv with h | h
      · rcases List.mem_cons.mp h with h' | h'
        · exact Or.inr (h' ▸ List.mem_cons_self s ss)
        · exact Or.inl h'
      · exact Or.inr (List.mem_cons_of_mem _ h)

theorem visitSuccs_succs_sub (ss : List Nat) :
    ∀ (vis q : List Nat), ∀ s ∈ ss, s ∈ (visitSuccs ss vis q).1 := by
  induction ss with
  | nil => intro vis q s hs; cases hs
  | cons a ss ih =>
    intro vis q s hs
    by_cases hm : a ∈ vis
    · simp only [visitSuccs, if_pos hm]
      rcases List.mem_cons.mp hs with h | h
      · exact h ▸ visitSuccs_vis_sub ss vis q a hm
      · exact ih vis q s h
    · simp only [visitSuccs, if_neg hm]
      rcases List.mem_cons.mp hs with h | h
      · exact h ▸ visitSuccs_vis_sub ss _ _ a (List.mem_cons_self a vis)
      · exact ih _ _ s h

theorem visitSuccs_q_sub (ss : List Nat) :
    ∀ (vis q : List Nat), ∀ x ∈ q, x ∈ (visitSuccs ss vis q).2 := by
  induction ss with
  | nil => intro vis q x hx; simpa [visitSuccs] using hx
  | cons a ss ih =>
    intro vis q x hx
    by_cases hm : a ∈ vis
    · simp only [visitSuccs, if_pos hm]
      exact ih vis q x hx
    · simp only [visitSuccs, if_neg hm]
      exact ih _ _ x (List.mem_append_left _ hx)

theorem visitSuccs_q_mem_or (ss : List Nat) :
    ∀ (vis q : List Nat), ∀ x ∈ (visitSuccs ss vis q).2,
      x ∈ q ∨ x ∈ (visitSuccs ss vis q).1 := by
  induction ss with
  | nil => intro vis q x hx; left; simpa [visitSuccs] using hx
  | cons a ss ih =>
    intro vis q x hx
    by_cases hm : a ∈ vis
    · simp only [visitSuccs, if_pos hm] at hx ⊢
      exact ih vis q x hx
    · simp only [visitSuccs, if_neg hm] at hx ⊢
      rcases ih _ _ x hx with h | h
      · rcases List.mem_append.mp h with h' | h'
        · exact Or.inl h'
        · have hxa : x = a := by simpa using h'
          exact Or.inr (hxa ▸ visitSuccs_vis_sub ss _ _ a (List.mem_cons_self a vis))
      · exact Or.inr h

theorem visitSuccs_new_q (ss : List Nat) :
    ∀ (vis q : List Nat), ∀ v ∈ (visitSuccs ss vis q).1,
      v ∈ vis ∨ v ∈ (visitSuccs ss vis q).2 := by
  induction ss with
  | nil => intro vis q v hv; left; simpa [visitSuccs] using hv
  | cons a ss ih =>
    intro vis q v hv
    by_cases hm : a ∈ vis
    · simp only [visitSuccs, if_pos hm] at hv ⊢
      exact ih vis q v hv
    · simp only [visitSuccs, if_neg hm] at hv ⊢
      rcases ih _ _ v hv with h | h
      · rcases List.mem_cons.mp h with h' | h'
        · subst h'
          exact Or.inr (visitSuccs_q_sub ss _ _ v
            (List.mem_append_right _ (List.mem_singleton.mpr rfl)))
        · exact Or.inl h'
      · exact Or.inr h

theorem visitSuccs_nodup (ss : List Nat) :
    ∀ (vis q : List Nat), vis.Nodup → (visitSuccs ss vis q).1.Nodup := by
  induction ss with
  | nil => intro vis q h; simpa [visitSuccs] using h
  | cons a ss ih =>
    intro vis q h
    by_cases hm : a ∈ vis
    · simp only [visitSuccs, if_pos hm]
      exact ih vis q h
    · simp only [visitSuccs, if_neg hm]
      exact ih _ _ (List.nodup_cons.mpr ⟨hm, h⟩)

theorem visitSuccs_measure (allS : Finset Nat) (ss : List Nat) :
    ∀ (vis q : List Nat), (∀ s ∈ ss, s ∈ allS) →
      (allS \ (visitSuccs ss vis q).1.toFinset).card
          + (visitSuccs ss vis q).2.length
        = (allS \ vis.toFinset).card + q.length := by
  induction ss with
  | nil => intro vis q _; simp [visitSuccs]
  | cons a ss ih =>
    intro vis q hss
    by_cases hm : a ∈ vis
    · simp only [visitSuccs, if_pos hm]
      exact ih vis q (fun s hs => hss s (List.mem_cons_of_mem _ hs))
    · simp only [visitSuccs, if_neg hm]
      have ha : a ∈ allS := hss a (List.mem_cons_self a ss)
      have h1 := ih (a :: vis) (q ++ [a])
        (fun s hs => hss s (List.mem_cons_of_mem _ hs))
      have hmem : a ∈ allS \ vis.toFinset :=
        Finset.mem_sdiff.mpr ⟨ha, by simpa using hm⟩
      have h3 : allS \ (a :: vis).toFinset = (allS \ vis.toFinset).erase a := by
        simp only [List.toFinset_cons]
        exact Finset.sdiff_insert allS vis.toFinset a
      have h4 : ((allS \ vis.toFinset).erase a).card
          = (allS \ vis.toFinset).card - 1 := Finset.card_erase_of_mem hmem
      have h5 : 1 ≤ (allS \ vis.toFinset).card :=
        Finset.card_pos.mpr ⟨a, hmem⟩
      rw [h1, h3, h4]
      simp only [List.length_append, List.length_singleton]
      omega

/-! ## Termination and soundness of the worklist loop -/

theorem bfsAux_nil (G : VFG) (fuel : Nat) (vis : List Nat) :
    bfsAux G fuel [] vis = some vis := by
  cases fuel <;> rfl

theorem bfsPops_nil (G : VFG) (fuel : Nat) (vis pops : List Nat) :
    bfsPops G fuel [] vis pops = some (vis, pops) := by
  cases fuel <;> rfl

theorem bfsAux_eq_pops (G : VFG) :
    ∀ (fuel : Nat) (queue vis pops : List Nat),
      bfsAux G fuel queue vis = (bfsPops G fuel queue vis pops).map Prod.fst := by
  intro fuel
  induction fuel with
  | zero => intro queue vis pops; cases queue <;> rfl
  | succ fuel ih =>
    intro queue vis pops
    cases queue with
    | nil => rfl
    | cons u rest =>
      simp only [bfsAux, bfsPops]
      exact ih _ _ _

theorem succOf_mem_allSuccs (G : VFG) (u s : Nat) (h : s ∈ G.succOf u) :
    s ∈ allSuccs G := by
  unfold VFG.succOf at h
  cases hg : G.nodes.get? u with
  | none => rw [hg] at h; simp at h
  | some nd =>
    rw [hg] at h
    simp at h
    exact List.mem_flatten.mpr
      ⟨nd.succ, List.mem_map.mpr ⟨nd, List.get?_mem hg, rfl⟩, h⟩

theorem bfsPops_term (G : VFG) (allS : Finset Nat)
    (hS : ∀ u : Nat, ∀ s ∈ G.succOf u, s ∈ allS) :
    ∀ (fuel : Nat) (queue vis pops : List Nat),
      (allS \ vis.toFinset).card + queue.length < fuel →
      ∃ r, bfsPops G fuel queue vis pops = some r := by
  intro fuel
  induction fuel with
  | zero => intro queue vis pops h; omega
  | succ fuel ih =>
    intro queue vis pops h
    cases queue with
    | nil => exact ⟨(vis, pops), bfsPops_nil G _ vis pops⟩
    | cons u rest =>
      simp only [bfsPops]
      apply ih
      have hm := visitSuccs_measure allS (G.succOf u) vis rest
        (fun s hs => hS u s hs)
      rw [hm]
      simp only [List.length_cons] at h
      omega

theorem traversePops_some (G : VFG) (root : Nat) :
    ∃ r, traversePops G root = some r := by
  apply bfsPops_term G (allSuccs G).toFinset
  · intro u s hs
    exact List.mem_toFinset.mpr (succOf_mem_allSuccs G u s hs)
  · simp only [List.toFinset_nil, Finset.sdiff_empty, List.length_singleton,
      bfsFuel, List.card_toFinset]
    omega

theorem traverse_eq_pops (G : VFG) (root : Nat) :
    traverse G root = (traversePops G root).map Prod.fst := by
  unfold traverse traversePops
  exact bfsAux_eq_pops G (bfsFuel G) [root] [] []

theorem traverse_some (G : VFG) (root : Nat) :
    ∃ vis, traverse G root = some vis := by
  obtain ⟨⟨vis, pops⟩, h⟩ := traversePops_some G root
  refine ⟨vis, ?_⟩
  rw [traverse_eq_pops, h]
  rfl

theorem bfsAux_inv (G : VFG) (root : Nat) :
    ∀ (fuel : Nat) (queue vis vis' : List Nat),
      bfsAux G fuel queue vis = some vis' →
      (∀ v ∈ vis, ReachesPlus G root v) →
      (∀ x ∈ queue, x = root ∨ x ∈ vis) →
      (∀ v : Nat, (v = root ∨ v ∈ vis) →
        v ∈ queue ∨ ∀ s ∈ G.succOf v, s ∈ vis) →
      (∀ v ∈ vis', ReachesPlus G root v) ∧
        (∀ v : Nat, (v = root ∨ v ∈ vis') → ∀ s ∈ G.succOf v, s ∈ vis') := by
  intro fuel
  induction fuel with
  | zero =>
    intro queue vis vis' h h1 h2 h3
    cases queue with
    | nil =>
      rw [bfsAux_nil] at h
      cases h
      refine ⟨h1, ?_⟩
      intro v hv s hs
      rcases h3 v hv with hq | hcl
      · cases hq
      · exact hcl s hs
    | cons u rest => simp [bfsAux] at h
  | succ fuel ih =>
    intro queue vis vis' h h1 h2 h3
    cases queue with
    | nil =>
      rw [bfsAux_nil] at h
      cases h
      refine ⟨h1, ?_⟩
      intro v hv s hs
      rcases h3 v hv with hq | hcl
      · cases hq
      · exact hcl s hs
    | cons u rest =>
      simp only [bfsAux] at h
      apply ih _ _ _ h
      · intro v hv
        rcases visitSuccs_mem_or _ _ _ v hv with hvv | hvs
        · exact h1 v hvv
        · rcases h2 u (List.mem_cons_self u rest) with hr | hvu
          · exact hr ▸ ReachesPlus.single hvs
          · exact ReachesPlus.tail (h1 u hvu) hvs
      · intro x hx
        rcases visitSuccs_q_mem_or _ _ _ x hx with hq | hv
        · rcases h2 x (List.mem_cons_of_mem _ hq) with hr | hvx
          · exact Or.inl hr
          · exact Or.inr (visitSuccs_vis_sub _ _ _ x hvx)
        · exact Or.inr hv
      · intro v hv
        by_cases hvu : v = u
        · exact Or.inr (fun s hs => hvu ▸ visitSuccs_succs_sub _ _ _ s (hvu ▸ hs))
        · have hold : v = root ∨ v ∈ vis → v ∈ (visitSuccs (G.succOf u) vis rest).2 ∨
              ∀ s ∈ G.succOf v, s ∈ (visitSuccs (G.succOf u) vis rest).1 := by
            intro hvold
            rcases h3 v hvold with hq | hcl
            · rcases List.mem_cons.mp hq with h' | h'
              · exact absurd h' hvu
              · exact Or.inl (visitSuccs_q_sub _ _ _ v h')
            · exact Or.inr (fun s hs => visitSuccs_vis_sub _ _ _ s (hcl s hs))
          rcases hv with hr | hv1
          · exact hold (Or.inl hr)
          · rcases visitSuccs_new_q _ _ _ v hv1 with hvv | hvq
            · exact hold (Or.inr hvv)
            · exact Or.inl hvq

theorem reach_mem_of_closed (G : VFG) (root : Nat) (vis : List Nat)
    (hcl : ∀ v : Nat, (v = root ∨ v ∈ vis) → ∀ s ∈ G.succOf v, s ∈ vis) :
    ∀ n : Nat, ReachesPlus G root n → n ∈ vis := by
  intro n h
  induction h with
  | single h => exact hcl root (Or.inl rfl) _ h
  | tail _ h2 ih => exact hcl _ (Or.inr ih) _ h2

theorem traverse_mem (G : VFG) (root : Nat) (vis : List Nat)
    (h : traverse G root = some vis) :
    ∀ n : Nat, n ∈ vis ↔ ReachesPlus G root n := by
  have hinv := bfsAux_inv G root (bfsFuel G) [root] [] vis h
    (by intro v hv; cases hv)
    (by intro x hx; exact Or.inl (by simpa using hx))
    (by
      intro v hv
      rcases hv with hr | hv
      · exact Or.inl (by simpa using hr)
      · cases hv)
  intro n
  constructor
  · exact fun hn => hinv.1 n hn
  · exact fun hr => reach_mem_of_closed G root vis hinv.2 n hr

/-! ## How often a node is popped, and how large the visited set grows -/

theorem visitSuccs_count (ss : List Nat) :
    ∀ (vis q : List Nat) (n : Nat),
      (visitSuccs ss vis q).2.count n + (if n ∈ vis then 1 else 0)
        ≤ q.count n + (if n ∈ (visitSuccs ss vis q).1 then 1 else 0) := by
  induction ss with
  | nil => intro vis q n; simp [visitSuccs]
  | cons a ss ih =>
    intro vis q n
    by_cases hm : a ∈ vis
    · simp only [visitSuccs, if_pos hm]
      exact ih vis q n
    · simp only [visitSuccs, if_neg hm]
      have h := ih (a :: vis) (q ++ [a]) n
      by_cases hp : n ∈ (visitSuccs ss (a :: vis) (q ++ [a])).1 <;>
        by_cases hn : n = a <;>
          simp [List.count_append, List.count_cons, List.count_nil,
            List.mem_cons, hm, hp, hn] at h ⊢ <;>
        omega

theorem bfsPops_count (G : VFG) (root : Nat) :
    ∀ (fuel : Nat) (queue vis pops vis' pops' : List Nat),
      bfsPops G fuel queue vis pops = some (vis', pops') →
      (∀ n : Nat, queue.count n + pops.count n
          ≤ (if n ∈ vis then 1 else 0) + (if n = root then 1 else 0)) →
      ∀ n : Nat, pops'.count n
          ≤ (if n ∈ vis' then 1 else 0) + (if n = root then 1 else 0) := by
  intro fuel
  induction fuel with
  | zero =>
    intro queue vis pops vis' pops' h hinv n
    cases queue with
    | nil =>
      rw [bfsPops_nil] at h
      cases h
      simpa using hinv n
    | cons u rest => simp [bfsPops] at h
  | succ fuel ih =>
    intro queue vis pops vis' pops' h hinv n
    cases queue with
    | nil =>
      rw [bfsPops_nil] at h
      cases h
      simpa using hinv n
    | cons u rest =>
      simp only [bfsPops] at h
      refine ih _ _ _ _ _ h ?_ n
      intro m
      have hc := visitSuccs_count (G.succOf u) vis rest m
      have hi := hinv m
      by_cases h1 : m ∈ vis <;>
        by_cases h2 : m ∈ (visitSuccs (G.succOf u) vis rest).1 <;>
          by_cases h3 : m = root <;>
            by_cases h4 : m = u <;>
              simp [List.count_cons, List.count_append, List.count_nil,
                h1, h2, h3, h4] at hc hi ⊢ <;>
        omega

theorem bfsPops_visited (G : VFG) :
    ∀ (fuel : Nat) (queue vis pops vis' pops' : List Nat),
      bfsPops G fuel queue vis pops = some (vis', pops') →
      vis.Nodup → (∀ v ∈ vis, v ∈ allSuccs G) →
      vis'.Nodup ∧ ∀ v ∈ vis', v ∈ allSuccs G := by
  intro fuel
  induction fuel with
  | zero =>
    intro queue vis pops vis' pops' h hn hb
    cases queue with
    | nil => rw [bfsPops_nil] at h; cases h; exact ⟨hn, hb⟩
    | cons u rest => simp [bfsPops] at h
  | succ fuel ih =>
    intro queue vis pops vis' pops' h hn hb
    cases queue with
    | nil => rw [bfsPops_nil] at h; cases h; exact ⟨hn, hb⟩
    | cons u rest =>
      simp only [bfsPops] at h
      refine ih _ _ _ _ _ h (visitSuccs_nodup _ _ _ hn) ?_
      intro v hv
      rcases visitSuccs_mem_or _ _ _ v hv with h' | h'
      · exact hb v h'
      · exact succOf_mem_allSuccs G u v h'

theorem allSuccs_lt (G : VFG) (h : WF G) :
    ∀ v ∈ allSuccs G, v < G.nodes.length := by
  intro v hv
  obtain ⟨l, hl, hvl⟩ := List.mem_flatten.mp hv
  obtain ⟨nd, hnd, rfl⟩ := List.mem_map.mp hl
  exact h nd hnd v hvl

theorem nodup_bounded_length (l : List Nat) (k : Nat) (hn : l.Nodup)
    (hb : ∀ v ∈ l, v < k) : l.length ≤ k := by
  have h1 : l.toFinset ⊆ Finset.range k := by
    intro v hv
    exact Finset.mem_range.mpr (hb v (List.mem_toFinset.mp hv))
  have h2 := Finset.card_le_card h1
  rw [Finset.card_range] at h2
  rwa [List.toFinset_card_of_nodup hn] at h2

theorem traversePops_props (G : VFG) (root : Nat) (vis pops : List Nat)
    (h : traversePops G root = some (vis, pops)) :
    (vis.Nodup ∧ (∀ v ∈ vis, v ∈ allSuccs G)) ∧
      ∀ n : Nat, pops.count n
        ≤ (if n ∈ vis then 1 else 0) + (if n = root then 1 else 0) := by
  constructor
  · exact bfsPops_visited G (bfsFuel G) [root] [] [] vis pops h
      List.nodup_nil (by intro v hv; cases hv)
  · refine bfsPops_count G root (bfsFuel G) [root] [] [] vis pops h ?_
    intro n
    by_cases h3 : n = root <;>
      simp [List.count_cons, List.count_nil, h3]

/-! ## Properties of the definition collector -/

theorem collectDefs_skip (G : VFG) (ext : ExtAPI) (vars : SrcVars)
    (cs : Nat) (rest : List Nat) (h : getCallee G cs = none) :
    collectDefsFrom G ext vars (cs :: rest) = collectDefsFrom G ext vars rest := by
  simp [collectDefsFrom, h]

theorem collectDefs_sound (G : VFG) (ext : ExtAPI) (vars : SrcVars) :
    ∀ (l : List Nat) (ds : List Def), collectDefsFrom G ext vars l = .ok ds →
      ∀ d ∈ ds, d.node ∈ l ∧
        (∃ f : String, getCallee G d.node = some f ∧
          (f = kTaggedMalloc ∨ f = kTaggedCalloc ∨ f = kTaggedRealloc) ∧
          (ext.is_alloc f || ext.is_realloc f) = true) ∧
        isTaggedAlloc (G.valueOf d.node) = true ∧ d.val = G.valueOf d.node := by
  intro l
  induction l with
  | nil =>
    intro ds h d hd
    simp only [collectDefsFrom] at h
    cases h
    cases hd
  | cons cs rest ih =>
    intro ds h d hd
    cases hc : getCallee G cs with
    | none =>
      rw [collectDefs_skip G ext vars cs rest hc] at h
      have hr := ih ds h d hd
      exact ⟨List.mem_cons_of_mem _ hr.1, hr.2⟩
    | some f =>
      simp only [collectDefsFrom, hc] at h
      by_cases hname : f = kTaggedMalloc ∨ f = kTaggedCalloc ∨ f = kTaggedRealloc
      · rw [if_pos hname] at h
        cases hta : isTaggedAlloc (G.valueOf cs) with
        | false => rw [hta] at h; simp at h
        | true =>
          rw [hta] at h
          cases hext : ext.is_alloc f || ext.is_realloc f with
          | false => rw [hext] at h; simp at h
          | true =>
            rw [hext] at h
            simp only [Bool.not_true, if_neg] at h
            cases hrec : collectDefsFrom G ext vars rest with
            | error e => rw [hrec] at h; cases h
            | ok ds' =>
              rw [hrec] at h
              cases h
              rcases List.mem_cons.mp hd with he | hm
              · subst he
                exact ⟨List.mem_cons_self cs rest,
                  ⟨f, hc, hname, hext⟩, hta, rfl⟩
              · have hr := ih ds' hrec d hm
                exact ⟨List.mem_cons_of_mem _ hr.1, hr.2⟩
      · rw [if_neg hname] at h
        have hr := ih ds h d hd
        exact ⟨List.mem_cons_of_mem _ hr.1, hr.2⟩

theorem collectDefs_fatal (G : VFG) (ext : ExtAPI) (vars : SrcVars) :
    ∀ (l : List Nat) (cs : Nat), cs ∈ l →
      ∀ f : String, getCallee G cs = some f →
      (f = kTaggedMalloc ∨ f = kTaggedCalloc ∨ f = kTaggedRealloc) →
      (isTaggedAlloc (G.valueOf cs) = false ∨
        (ext.is_alloc f || ext.is_realloc f) = false) →
      ∃ e, collectDefsFrom G ext vars l = .error e := by
  intro l
  induction l with
  | nil => intro cs hcs; cases hcs
  | cons a rest ih =>
    intro cs hcs f hf hname hviol
    rcases List.mem_cons.mp hcs with heq | hmem
    · subst heq
      simp only [collectDefsFrom, hf]
      rw [if_pos hname]
      rcases hviol with hv | hv
      · exact ⟨_, by rw [hv]; rfl⟩
      · cases hta : isTaggedAlloc (G.valueOf cs) with
        | false => exact ⟨_, rfl⟩
        | true => exact ⟨_, by rw [hv]; rfl⟩
    · cases hg : getCallee G a with
      | none =>
        rw [collectDefs_skip G ext vars a rest hg]
        exact ih cs hmem f hf hname hviol
      | some g =>
        simp only [collectDefsFrom, hg]
        by_cases hgname : g = kTaggedMalloc ∨ g = kTaggedCalloc ∨ g = kTaggedRealloc
        · rw [if_pos hgname]
          cases hta : isTaggedAlloc (G.valueOf a) with
          | false => exact ⟨_, rfl⟩
          | true =>
            cases hext : ext.is_alloc g || ext.is_realloc g with
            | false => exact ⟨_, rfl⟩
            | true =>
              obtain ⟨e, he⟩ := ih cs hmem f hf hname hviol
              refine ⟨e, ?_⟩
              rw [he]
              rfl
        · rw [if_neg hgname]
          exact ih cs hmem f hf hname hviol

/-! ## Properties of the use classifier -/

theorem getCallee_shape (G : VFG) (cs : Nat) (f : String)
    (h : getCallee G cs = some f) :
    ∃ vi : ValueInfo, G.valueOf cs = some vi ∧
      vi.instr = some (.call (some f)) := by
  unfold getCallee at h
  split at h
  · rename_i vi hv
    split at h
    · rename_i c hi
      exact ⟨vi, hv, by rw [hi, h]⟩
    · cases h
  · cases h

theorem isLoadOrStore_call (vi : ValueInfo) (c : Option String)
    (h : vi.instr = some (.call c)) : isLoadOrStore (some vi) = false := by
  simp [isLoadOrStore, h]

theorem useOf_ok_some (G : VFG) (vars : SrcVars) (n : Nat) (u : Use)
    (h : useOf G vars n = .ok (some u)) :
    u.node = n ∧ isInstrumentedDeref (G.valueOf n) = true ∧
      u.val = G.valueOf n ∧ isLoadOrStore (G.valueOf n) = true ∧
      ∀ vi : ValueInfo, G.valueOf n = some vi → u.loc = vi.debugLoc := by
  unfold useOf at h
  split at h
  case isFalse hp => simp at h
  case isTrue hp =>
    split at h
    · rename_i vi hv
      split at h
      · rename_i p hi
        cases h
        refine ⟨rfl, hp, hv.symm, by simp [isLoadOrStore, hv, hi], ?_⟩
        intro vi' hvi'
        rw [hv] at hvi'
        cases hvi'
        rfl
      · rename_i p hi
        cases h
        refine ⟨rfl, hp, hv.symm, by simp [isLoadOrStore, hv, hi], ?_⟩
        intro vi' hvi'
        rw [hv] at hvi'
        cases hvi'
        rfl
      · cases h
    · cases h

theorem useOf_ok_none (G : VFG) (vars : SrcVars) (n : Nat)
    (h : useOf G vars n = .ok none) :
    isInstrumentedDeref (G.valueOf n) = false := by
  unfold useOf at h
  split at h
  case isFalse hp => simpa using hp
  case isTrue hp =>
    split at h
    · split at h
      · cases h
      · cases h
      · cases h
    · cases h

theorem useOf_fatal (G : VFG) (vars : SrcVars) (n : Nat)
    (hp : isInstrumentedDeref (G.valueOf n) = true)
    (hls : isLoadOrStore (G.valueOf n) = false) :
    useOf G vars n = .error ("use must be a load or store") := by
  cases hv : G.valueOf n with
  | none => rw [hv] at hp; simp [isInstrumentedDeref] at hp
  | some vi =>
    have hp' : isInstrumentedDeref (some vi) = true := by rw [← hv]; exact hp
    cases hi : vi.instr with
    | none => simp [useOf, hp', hv, hi]
    | some k =>
      cases k with
      | call c => simp [useOf, hp', hv, hi]
      | other => simp [useOf, hp', hv, hi]
      | load p => rw [hv] at hls; simp [isLoadOrStore, hi] at hls
      | store p => rw [hv] at hls; simp [isLoadOrStore, hi] at hls

theorem useOf_error_msg (G : VFG) (vars : SrcVars) (n : Nat) (e : String)
    (h : useOf G vars n = .error e) :
    e = "use must be a load or store" := by
  unfold useOf at h
  split at h
  case isFalse hp => cases h
  case isTrue hp =>
    split at h
    · split at h
      · cases h
      · cases h
      · cases h; rfl
    · cases h; rfl

theorem collectUsesList_mem (G : VFG) (vars : SrcVars) :
    ∀ (l : List Nat) (us : List Use), collectUsesList G vars l = .ok us →
      ∀ n : Nat, (∃ u ∈ us, u.node = n) ↔
        n ∈ l ∧ isInstrumentedDeref (G.valueOf n) = true := by
  intro l
  induction l with
  | nil =>
    intro us h n
    simp only [collectUsesList] at h
    cases h
    simp
  | cons m rest ih =>
    intro us h n
    simp only [collectUsesList] at h
    cases ho : useOf G vars m with
    | error e => rw [ho] at h; cases h
    | ok o =>
      rw [ho] at h
      cases hr : collectUsesList G vars rest with
      | error e => rw [hr] at h; cases h
      | ok us' =>
        rw [hr] at h
        cases o with
        | none =>
          injection h with h'
          subst h'
          have hpred := useOf_ok_none G vars m ho
          constructor
          · rintro ⟨u, hu, hun⟩
            have hrest := (ih us' hr n).mp ⟨u, hu, hun⟩
            exact ⟨List.mem_cons_of_mem _ hrest.1, hrest.2⟩
          · rintro ⟨hmem, hp⟩
            rcases List.mem_cons.mp hmem with he | hm2
            · subst he; rw [hpred] at hp; cases hp
            · exact (ih us' hr n).mpr ⟨hm2, hp⟩
        | some u0 =>
          injection h with h'
          subst h'
          obtain ⟨hnode, hpred, -, -, -⟩ := useOf_ok_some G vars m u0 ho
          constructor
          · rintro ⟨u, hu, hun⟩
            rcases List.mem_cons.mp hu with he | hm2
            · subst he
              rw [← hun, hnode]
              exact ⟨List.mem_cons_self m rest, hnode ▸ hpred⟩
            · have hrest := (ih us' hr n).mp ⟨u, hm2, hun⟩
              exact ⟨List.mem_cons_of_mem _ hrest.1, hrest.2⟩
          · rintro ⟨hmem, hp⟩
            rcases List.mem_cons.mp hmem with he | hm2
            · subst he
              exact ⟨u0, List.mem_cons_self u0 us', hnode⟩
            · obtain ⟨u, hu, hun⟩ := (ih us' hr n).mpr ⟨hm2, hp⟩
              exact ⟨u, List.mem_cons_of_mem _ hu, hun⟩

theorem collectUsesList_loadstore (G : VFG) (vars : SrcVars) :
    ∀ (l : List Nat) (us : List Use), collectUsesList G vars l = .ok us →
      ∀ u ∈ us, u.val = G.valueOf u.node ∧
        isLoadOrStore (G.valueOf u.node) = true := by
  intro l
  induction l with
  | nil =>
    intro us h u hu
    simp only [collectUsesList] at h
    cases h
    cases hu
  | cons m rest ih =>
    intro us h u hu
    simp only [collectUsesList] at h
    cases ho : useOf G vars m with
    | error e => rw [ho] at h; cases h
    | ok o =>
      rw [ho] at h
      cases hr : collectUsesList G vars rest with
      | error e => rw [hr] at h; cases h
      | ok us' =>
        rw [hr] at h
        cases o with
        | none =>
          injection h with h'
          subst h'
          exact ih us' hr u hu
        | some u0 =>
          injection h with h'
          subst h'
          rcases List.mem_cons.mp hu with he | hm2
          · subst he
            obtain ⟨hnode, -, hval, hls, -⟩ := useOf_ok_some G vars m u ho
            rw [hnode]
            exact ⟨hval, hls⟩
          · exact ih us' hr u hm2

theorem collectUsesList_fatal (G : VFG) (vars : SrcVars) :
    ∀ l : List Nat,
      (∃ n ∈ l, isInstrumentedDeref (G.valueOf n) = true ∧
        isLoadOrStore (G.valueOf n) = false) →
      collectUsesList G vars l = .error ("use must be a load or store") := by
  intro l
  induction l with
  | nil => rintro ⟨n, hn, -⟩; cases hn
  | cons m rest ih =>
    rintro ⟨n, hn, hp, hls⟩
    rcases List.mem_cons.mp hn with he | hm
    · subst he
      simp only [collectUsesList, useOf_fatal G vars n hp hls]
    · cases ho : useOf G vars m with
      | error e =>
        have hmsg := useOf_error_msg G vars m e ho
        simp only [collectUsesList, ho, hmsg]
      | ok o =>
        simp only [collectUsesList, ho, ih ⟨n, hm, hp, hls⟩]

/-! ## Properties of the chain store -/

theorem defBeq_iff (a b : Def) : Def.beq a b = true ↔ a.node = b.node := by
  simp [Def.beq]

theorem useMem_node (u1 u2 : Use) (hu : u1.node = u2.node) (us : List Use) :
    useMem u2 us = useMem u1 us := by
  unfold useMem Use.beq
  rw [hu]

theorem useMem_cons_self (u1 u2 : Use) (hu : u1.node = u2.node)
    (us : List Use) : useMem u2 (u1 :: us) = true := by
  simp [useMem, Use.beq, hu]

theorem insertUse_idem (d1 d2 : Def) (u1 u2 : Use)
    (hd : d1.node = d2.node) (hu : u1.node = u2.node) :
    ∀ S : List (Def × List Use),
      insertUse (insertUse S d1 u1) d2 u2 = insertUse S d1 u1 := by
  have hb12 : Def.beq d1 d2 = true := (defBeq_iff d1 d2).mpr hd
  intro S
  induction S with
  | nil =>
    simp [insertUse, hb12, useMem_cons_self u1 u2 hu]
  | cons p rest ih =>
    obtain ⟨d', us⟩ := p
    cases hb : Def.beq d' d1 with
    | true =>
      have hb2 : Def.beq d' d2 = true := by
        rw [defBeq_iff] at hb ⊢
        rw [hb, hd]
      cases hm1 : useMem u1 us with
      | true =>
        have hm2 : useMem u2 us = true := by
          rw [useMem_node u1 u2 hu us]
          exact hm1
        simp [insertUse, hb, hb2, hm1, hm2]
      | false =>
        simp [insertUse, hb, hb2, hm1, useMem_cons_self u1 u2 hu us]
    | false =>
      have hb2 : Def.beq d' d2 = false := by
        cases hbc : Def.beq d' d2 with
        | false => rfl
        | true =>
          rw [defBeq_iff] at hbc
          have : Def.beq d' d1 = true := (defBeq_iff d' d1).mpr (hd ▸ hbc)
          rw [this] at hb
          cases hb
      simp [insertUse, hb, hb2, ih]

theorem storedUses_congr (d1 d2 : Def) (hd : d1.node = d2.node) :
    ∀ S : List (Def × List Use), storedUses S d1 = storedUses S d2 := by
  intro S
  induction S with
  | nil => rfl
  | cons p rest ih =>
    obtain ⟨d', us⟩ := p
    simp only [storedUses]
    have : Def.beq d' d1 = Def.beq d' d2 := by
      unfold Def.beq
      rw [hd]
    rw [this]
    by_cases hb : Def.beq d' d2 = true
    · rw [if_pos hb, if_pos hb]
    · rw [if_neg hb, if_neg hb]
      exact ih

theorem printValue_ne_empty (vi : ValueInfo) : printValue vi ≠ "" := by
  unfold printValue
  cases vi.instr with
  | none => decide
  | some k =>
    cases k with
    | load p =>
      show ("%load" : String) ≠ ""
      decide
    | store p =>
      show ("%store" : String) ≠ ""
      decide
    | call c =>
      show ("%call" : String) ≠ ""
      decide
    | other => decide

/-! ## The claims -/

/-- C1: for every definition, when the use-collection phase completes
normally, the emitted use set contains exactly the nodes reachable from the
definition's node by one or more dataflow edges whose underlying value
satisfies the instrumented-dereference predicate; visited nodes failing the
predicate are dropped, and traversal passes through non-use intermediate
nodes. -/
theorem c1_use_set_exact (G : VFG) (vars : SrcVars) (root : Nat)
    (us : List Use) (h : collectUses G vars root = .ok us) :
    ∀ n : Nat, (∃ u ∈ us, u.node = n) ↔
      ReachesPlus G root n ∧ isInstrumentedDeref (G.valueOf n) = true := by
  unfold collectUses at h
  cases hv : traverse G root with
  | none => rw [hv] at h; cases h
  | some vis =>
    rw [hv] at h
    intro n
    rw [collectUsesList_mem G vars vis us h n]
    rw [traverse_mem G root vis hv n]

/-- C1 witness: in the chain graph 0 → 1 → 2 with an uninstrumented
intermediate node 1, node 2 is reported among the uses of node 0. -/
theorem c1_witness :
    ∃ u ∈ ([⟨2, some viLoad, none, none⟩] : List Use), u.node = 2 := by
  refine (c1_use_set_exact chainG exVars 0 [⟨2, some viLoad, none, none⟩]
    rfl 2).mpr ⟨?_, ?_⟩
  · exact @ReachesPlus.tail chainG 0 1 2
      (@ReachesPlus.single chainG 0 1 (by decide)) (by decide)
  · rfl

/-- C2: a use emitted for a definition is never the definition's own graph
node: the definition's node carries a resolved call, an emitted use carries a
load or store, and a node has a single underlying value. -/
theorem c2_no_self_use (G : VFG) (ext : ExtAPI) (vars : SrcVars)
    (ds : List Def) (us : List Use) (d : Def)
    (hds : collectDefsFrom G ext vars G.callSites = .ok ds) (hd : d ∈ ds)
    (hus : collectUses G vars d.node = .ok us) :
    ∀ u ∈ us, u.node ≠ d.node := by
  intro u hu heq
  obtain ⟨-, ⟨f, hf, -, -⟩, -, -⟩ :=
    collectDefs_sound G ext vars G.callSites ds hds d hd
  obtain ⟨vi, hvi, hinstr⟩ := getCallee_shape G d.node f hf
  unfold collectUses at hus
  cases hv : traverse G d.node with
  | none => rw [hv] at hus; cases hus
  | some vis =>
    rw [hv] at hus
    have hls := (collectUsesList_loadstore G vars vis us hus u hu).2
    rw [heq, hvi, isLoadOrStore_call vi (some f) hinstr] at hls
    cases hls

/-- C2 witness: in the cycle graph 0 → 1 → 0 the single emitted use is node
1, not the definition node 0, even though 0 is reachable from itself. -/
theorem c2_witness :
    (⟨1, some viLoad, none, none⟩ : Use).node ≠ (0 : Nat) := by
  have h := c2_no_self_use cycleG exExt exVars
    [⟨0, some viCall, none⟩] [⟨1, some viLoad, none, none⟩]
    ⟨0, some viCall, none⟩ rfl (List.mem_cons_self _ _) rfl
  exact h ⟨1, some viLoad, none, none⟩ (List.mem_cons_self _ _)

/-- C3: a visited node that passes the instrumented-use predicate but whose
value is neither a load nor a store makes the engine abort fatally; it is
never skipped and never yields a use list. -/
theorem c3_unreachable_fatal (G : VFG) (vars : SrcVars) (root n : Nat)
    (vis : List Nat) (hvis : traverse G root = some vis) (hn : n ∈ vis)
    (hp : isInstrumentedDeref (G.valueOf n) = true)
    (hls : isLoadOrStore (G.valueOf n) = false) :
    collectUses G vars root = .error ("use must be a load or store") ∧
      ∀ us : List Use, collectUses G vars root ≠ .ok us := by
  have herr : collectUses G vars root = .error ("use must be a load or store") := by
    unfold collectUses
    rw [hvis]
    exact collectUsesList_fatal G vars vis ⟨n, hn, hp, hls⟩
  refine ⟨herr, ?_⟩
  intro us hok
  rw [herr] at hok
  cases hok

/-- C3 witness: the graph whose node 1 is instrumented but neither load nor
store makes use collection from node 0 abort. -/
theorem c3_witness :
    collectUses badUseG exVars 0 = .error ("use must be a load or store") := by
  exact (c3_unreachable_fatal badUseG exVars 0 1 [1] rfl (by decide) rfl rfl).1

/-- C4: every call site accepted as a definition carries the tagged-alloc
annotation and an externally (re)allocating callee; a matching call site
violating either condition makes the collector abort instead of constructing
the definition or continuing. -/
theorem c4_def_precondition (G : VFG) (ext : ExtAPI) (vars : SrcVars) :
    (∀ ds : List Def, collectDefsFrom G ext vars G.callSites = .ok ds →
      ∀ d ∈ ds, isTaggedAlloc (G.valueOf d.node) = true ∧
        ∃ f : String, getCallee G d.node = some f ∧
          (ext.is_alloc f || ext.is_realloc f) = true) ∧
    ∀ (cs : Nat) (f : String), cs ∈ G.callSites → getCallee G cs = some f →
      (f = kTaggedMalloc ∨ f = kTaggedCalloc ∨ f = kTaggedRealloc) →
      (isTaggedAlloc (G.valueOf cs) = false ∨
        (ext.is_alloc f || ext.is_realloc f) = false) →
      ∃ e, collectDefsFrom G ext vars G.callSites = .error e := by
  constructor
  · intro ds h d hd
    obtain ⟨-, ⟨f, hf, -, hext⟩, hta, -⟩ :=
      collectDefs_sound G ext vars G.callSites ds h d hd
    exact ⟨hta, f, hf, hext⟩
  · intro cs f hcs hf hname hviol
    exact collectDefs_fatal G ext vars G.callSites cs hcs f hf hname hviol

/-- C4 witness: the accepted definition of the chain graph satisfies both
preconditions, and the metadata-free tagged call site aborts the
collector. -/
theorem c4_witness :
    isTaggedAlloc (chainG.valueOf 0) = true ∧
      ∃ e, collectDefsFrom noMDG exExt exVars noMDG.callSites = .error e := by
  constructor
  · exact ((c4_def_precondition chainG exExt exVars).1
      [⟨0, some viCall, none⟩] rfl ⟨0, some viCall, none⟩
      (List.mem_cons_self _ _)).1
  · exact (c4_def_precondition noMDG exExt exVars).2 0 kTaggedMalloc
      (List.mem_cons_self _ _) rfl (Or.inl rfl) (Or.inl rfl)

/-- C5: when the collector finds zero definitions the run stops with a
diagnostic and exit status 1, producing no output and never reaching
traversal or serialization. -/
theorem c5_empty_defs_fatal (G : VFG) (ext : ExtAPI) (vars : SrcVars)
    (out : String)
    (h : collectDefsFrom G ext vars G.callSites = .ok []) :
    runAnalysis G ext vars out =
      .error (.exitNonZero 1 ("Failed to collect any def sites")) := by
  unfold runAnalysis
  rw [h]
  rfl

/-- C5 witness: a graph with no call sites makes the whole run exit with
status 1 and no output. -/
theorem c5_witness :
    runAnalysis emptyCSG exExt exVars ("out.json") =
      .error (.exitNonZero 1 ("Failed to collect any def sites")) := by
  exact c5_empty_defs_fatal emptyCSG exExt exVars ("out.json") rfl

/-- C6 (amended): the per-definition traversal terminates on every finite
graph, including cyclic ones; on a well-formed graph the visited set never
exceeds the node count; visited-set insertion before enqueueing deduplicates
so that no node other than the root is popped twice, and the root itself is
popped at most twice (a second time exactly when a cycle reaches back to it,
since the initial seeding bypasses the visited set). -/
theorem c6_traversal_termination (G : VFG) (root : Nat) :
    (∃ r, traversePops G root = some r) ∧
    traverse G root = (traversePops G root).map Prod.fst ∧
    ∀ vis pops : List Nat, traversePops G root = some (vis, pops) →
      (WF G → vis.length ≤ G.nodes.length) ∧
      (∀ n : Nat, n ≠ root → pops.count n ≤ 1) ∧
      pops.count root ≤ 2 := by
  refine ⟨traversePops_some G root, traverse_eq_pops G root, ?_⟩
  intro vis pops h
  obtain ⟨⟨hnd, hsub⟩, hcount⟩ := traversePops_props G root vis pops h
  refine ⟨?_, ?_, ?_⟩
  · intro hwf
    exact nodup_bounded_length vis G.nodes.length hnd
      (fun v hv => allSuccs_lt G hwf v (hsub v hv))
  · intro n hn
    have hc := hcount n
    rw [if_neg hn] at hc
    by_cases hv : n ∈ vis
    · rw [if_pos hv] at hc; omega
    · rw [if_neg hv] at hc; omega
  · have hc := hcount root
    rw [if_pos rfl] at hc
    by_cases hv : root ∈ vis
    · rw [if_pos hv] at hc; omega
    · rw [if_neg hv] at hc; omega

/-- C6 counterexample: on the self-loop graph the root node 0 is popped from
the work queue twice — the claim that no node is ever processed twice fails
for a root lying on a cycle, because the initial seeding pushes the root
without inserting it into the visited set. -/
theorem c6_counterexample :
    traversePops selfLoopG 0 = some ([0], [0, 0]) ∧
      ([0, 0] : List Nat).count 0 = 2 := ⟨rfl, rfl⟩

/-- C6 witness: on the self-loop graph the visited set stays within the node
count, the non-root node 1 is popped at most once, and the root is popped at
most twice. -/
theorem c6_witness :
    ([0] : List Nat).length ≤ selfLoopG.nodes.length ∧
      ([0, 0] : List Nat).count 1 ≤ 1 ∧ ([0, 0] : List Nat).count 0 ≤ 2 := by
  have h := (c6_traversal_termination selfLoopG 0).2.2 [0] [0, 0] rfl
  exact ⟨h.1 (by decide), h.2.1 1 (by decide), h.2.2⟩

/-- C7: equality and hashing of definition and use records derive solely
from the underlying node — records on the same node are equal and hash equal
whatever their variables — and inserting an equal (definition, use) pair into
the chain store twice leaves the store, in particular the stored use set's
size, unchanged. -/
theorem c7_node_identity (d1 d2 : Def) (u1 u2 : Use)
    (S : List (Def × List Use)) (hd : d1.node = d2.node)
    (hu : u1.node = u2.node) :
    (Def.beq d1 d2 = true ∧ defHash d1 = defHash d2 ∧
      Use.beq u1 u2 = true ∧ useHash u1 = useHash u2) ∧
    insertUse (insertUse S d1 u1) d2 u2 = insertUse S d1 u1 ∧
    (storedUses (insertUse (insertUse S d1 u1) d2 u2) d1).length
      = (storedUses (insertUse S d1 u1) d1).length := by
  refine ⟨⟨(defBeq_iff d1 d2).mpr hd, ?_, ?_, ?_⟩, ?_, ?_⟩
  · unfold defHash; rw [hd]
  · simp [Use.beq, hu]
  · unfold useHash; rw [hu]
  · exact insertUse_idem d1 d2 u1 u2 hd hu S
  · rw [insertUse_idem d1 d2 u1 u2 hd hu S]

/-- C7 witness: records on node 5 and node 7 with different variables compare
equal and a second insertion leaves the store unchanged. -/
theorem c7_witness :
    Def.beq c7d1 c7d2 = true ∧
      insertUse (insertUse [] c7d1 c7u1) c7d2 c7u2
        = insertUse [] c7d1 c7u1 := by
  have h := c7_node_identity c7d1 c7d2 c7u1 c7u2 [] rfl rfl
  exact ⟨h.1.1, h.2.1⟩

/-- C8 counterexample: a use renders with three positional fields whose
first is the literal null — the file slot is present-but-null, not omitted,
so no rendering of the two-field shape (name, [function?, line?]) exists. -/
theorem c8_counterexample :
    useToJSON u8c = .arr [.str ("x"), .arr [.null, .str ("main"), .num 5]] ∧
      ¬ ∃ nm a b : JSON, useToJSON u8c = .arr [nm, .arr [a, b]] := by
  refine ⟨rfl, ?_⟩
  rintro ⟨nm, a, b, h⟩
  have h2 : JSON.arr [.str ("x"), .arr [.null, .str ("main"), .num 5]]
      = .arr [nm, .arr [a, b]] := h
  simp at h2

/-- C8 (amended): a definition renders as (name, [file?, function?, line?])
with the variable's file and line filling the slots when present, while a use
renders as (name, [null, function?, line?]): its file slot is present but
unconditionally null — asymmetric with the definition's rendering. -/
theorem c8_amended_rendering (d : Def) (u : Use) (v : DIVar)
    (hv : d.var = some v) :
    defToJSON d = .arr [.str v.name,
        .arr [.str v.file, defFunc d, .num v.line]] ∧
      useToJSON u = .arr [.str (useName u),
        .arr [.null, useFunc u, useLine u]] := by
  constructor
  · simp [defToJSON, defName, defFilename, defLine, hv]
  · rfl

/-- C8 witness: the rendering shapes at a concrete fully-annotated definition
and use. -/
theorem c8_witness :
    defToJSON d8 = .arr [.str varX.name,
        .arr [.str varX.file, defFunc d8, .num varX.line]] ∧
      useToJSON u8c = .arr [.str (useName u8c),
        .arr [.null, useFunc u8c, useLine u8c]] := by
  exact c8_amended_rendering d8 u8c varX rfl

/-- C9 counterexample: the use u9c has no debug variable, so the claim
predicts a block-name function field and an absent line; the code instead
renders the debug location's subprogram name and line number. -/
theorem c9_counterexample :
    useToJSON u9c
        = .arr [.str ("%load"), .arr [.null, .str ("main"), .num 5]] ∧
      useToJSON u9c
        ≠ .arr [.str ("%load"), .arr [.null, .str ("entry"), .null]] := by
  refine ⟨rfl, ?_⟩
  intro h
  have h2 : JSON.arr [.str ("%load"), .arr [.null, .str ("main"), .num 5]]
      = .arr [.str ("%load"), .arr [.null, .str ("entry"), .null]] := h
  simp at h2

/-- C9 (amended): with the debug variable absent the name falls back to a
non-empty textual rendering of the raw value; a definition's remaining fields
degrade to the containing block's name (when the value is an instruction) and
absent file/line; a use's function and line fields are governed by the debug
location, not the variable — they degrade to block name and absent only when
the location is also absent, and otherwise render from the location.  The
degraded path always produces a value. -/
theorem c9_fallback_rendering (d : Def) (u : Use) (vi vi2 : ValueInfo)
    (hdvar : d.var = none) (hdval : d.val = some vi)
    (huvar : u.var = none) (huval : u.val = some vi2) :
    (defToJSON d = .arr [.str (printValue vi),
        .arr [.null, instParentJSON (some vi), .null]] ∧
      printValue vi ≠ "" ∧
      ∀ k : InstKind, vi.instr = some k →
        instParentJSON (some vi) = .str vi.parentBlock) ∧
    (useName u = printValue vi2 ∧ printValue vi2 ≠ "" ∧
      (u.loc = none → useToJSON u = .arr [.str (printValue vi2),
        .arr [.null, instParentJSON (some vi2), .null]]) ∧
      ∀ l : DILoc, u.loc = some l → useToJSON u
        = .arr [.str (printValue vi2),
            .arr [.null, .str l.scopeSubprogram, .num l.line]]) := by
  refine ⟨⟨?_, printValue_ne_empty vi, ?_⟩, ?_, printValue_ne_empty vi2, ?_, ?_⟩
  · simp [defToJSON, defName, defFilename, defFunc, defLine, hdvar, hdval]
  · intro k hk
    simp [instParentJSON, hk]
  · simp [useName, huvar, huval]
  · intro hl
    simp [useToJSON, useName, useFunc, useLine, huvar, huval, hl]
  · intro l hl
    simp [useToJSON, useName, useFunc, useLine, huvar, huval, hl]

/-- C9 witness: the degraded renderings at a concrete definition and use with
no recovered variable and no location, evaluated on a load value. -/
theorem c9_witness :
    defToJSON d9 = .arr [.str (printValue viLoad),
        .arr [.null, instParentJSON (some viLoad), .null]] ∧
      printValue viLoad ≠ "" ∧
      useName u9a = printValue viLoad := by
  have h := c9_fallback_rendering d9 u9a viLoad viLoad rfl rfl rfl rfl
  exact ⟨h.1.1, h.1.2.1, h.2.1⟩

/-- C10: a call site whose callee lookup fails is silently skipped — the
collector's result on it is exactly its result on the remaining call sites,
with no error — and every collected definition has a resolved callee whose
name is one of the three tagged-allocation names. -/
theorem c10_unresolved_skipped (G : VFG) (ext : ExtAPI) (vars : SrcVars) :
    (∀ (cs : Nat) (rest : List Nat), getCallee G cs = none →
      collectDefsFrom G ext vars (cs :: rest)
        = collectDefsFrom G ext vars rest) ∧
    ∀ (l : List Nat) (ds : List Def), collectDefsFrom G ext vars l = .ok ds →
      ∀ d ∈ ds, ∃ f : String, getCallee G d.node = some f ∧
        (f = kTaggedMalloc ∨ f = kTaggedCalloc ∨ f = kTaggedRealloc) := by
  constructor
  · exact fun cs rest h => collectDefs_skip G ext vars cs rest h
  · intro l ds h d hd
    obtain ⟨-, ⟨f, hf, hname, -⟩, -, -⟩ :=
      collectDefs_sound G ext vars l ds h d hd
    exact ⟨f, hf, hname⟩

/-- C10 witness: the indirect call site of indG is skipped without error, and
the definition collected from the chain graph names a tagged allocator. -/
theorem c10_witness :
    collectDefsFrom indG exExt exVars (0 :: [])
        = collectDefsFrom indG exExt exVars [] ∧
      ∃ f : String, getCallee chainG 0 = some f ∧
        (f = kTaggedMalloc ∨ f = kTaggedCalloc ∨ f = kTaggedRealloc) := by
  constructor
  · exact (c10_unresolved_skipped indG exExt exVars).1 0 [] rfl
  · exact (c10_unresolved_skipped chainG exExt exVars).2 [0]
      [⟨0, some viCall, none⟩] rfl ⟨0, some viCall, none⟩
      (List.mem_cons_self _ _)

end Dataflow
